import Mathlib

/-!
Verification of the session history consistency engine of picoclaw.

The message model and the operations below are shallow embeddings of the Go
sources: pkg/agent/sanitize.go (repairOrphanedToolPairs), pkg/doctor/doctor.go
(checkSessionMessages), cmd/picoclaw/cmd_sessions.go (listSessionEntries), and,
where the Go file is absent from the source tree, models built from spec.md
(TruncateHistory and the Save key validation of pkg/session/manager.go).
-/

set_option maxHeartbeats 1000000

namespace Picoclaw

/-- Nested function descriptor of a tool call (providers.ToolCall.Function). -/
structure FunctionCall where
  name : String
deriving DecidableEq

/-- providers.ToolCall: id, direct name, and the optional nested function field. -/
structure ToolCall where
  id : String
  name : String
  function : Option FunctionCall := none
deriving DecidableEq

/-- providers.Message: one conversation turn. -/
structure Message where
  role : String
  content : String := ""
  toolCalls : List ToolCall := []
  toolCallID : String := ""
deriving DecidableEq

/-! ## pkg/agent/sanitize.go : repairOrphanedToolPairs -/

/-- The placeholder content of an injected synthetic tool result
(sanitize.go line 71). -/
def syntheticContent : String :=
  "[tool result unavailable — session history was compressed]"

/-- The synthetic tool message injected for an unanswered tool call
(sanitize.go lines 68-72). -/
def syntheticResult (id : String) : Message :=
  { role := "tool", toolCallID := id, content := syntheticContent, toolCalls := [] }

/-- Membership in the set of tool call ids collected from assistant messages
(sanitize.go lines 17-26).  The Go set holds only non-empty ids; every query
made against it supplies a non-empty id, so the emptiness test can live at the
query sites without changing any answer. -/
def isAssistantCallID (msgs : List Message) (id : String) : Bool :=
  msgs.any (fun m => m.role == "assistant" && m.toolCalls.any (fun tc => tc.id == id))

/-- Step 2 of repairOrphanedToolPairs: drop tool results whose id is non-empty
and matches no assistant tool call (sanitize.go lines 28-39). -/
def dropOrphanedResults (msgs : List Message) : List Message :=
  msgs.filter (fun m =>
    !(m.role == "tool" && m.toolCallID != "" && !isAssistantCallID msgs m.toolCallID))

/-- Step 3 of repairOrphanedToolPairs: the ids of the tool results present in
the surviving sequence (sanitize.go lines 41-47).  The Go map is a set; a list
queried by contains is its membership. -/
def collectResultIDs : List Message → List String
  | [] => []
  | m :: rest =>
    if m.role == "tool" && m.toolCallID != "" then m.toolCallID :: collectResultIDs rest
    else collectResultIDs rest

/-- flushPending of repairOrphanedToolPairs (sanitize.go lines 55-76): walk the
pending calls in order, inject a synthetic result for each call whose id is
non-empty and not yet answered, recording every injected id. -/
def flushPending : List ToolCall → List String → List Message × List String
  | [], rids => ([], rids)
  | tc :: rest, rids =>
    if tc.id == "" || rids.contains tc.id then flushPending rest rids
    else
      (syntheticResult tc.id :: (flushPending rest (tc.id :: rids)).1,
       (flushPending rest (tc.id :: rids)).2)

/-- The pending-calls update after emitting a message (sanitize.go lines 86-88):
an assistant message with tool calls replaces the pending set. -/
def nextPending (m : Message) (pending : List ToolCall) : List ToolCall :=
  if m.role == "assistant" && !m.toolCalls.isEmpty then m.toolCalls else pending

/-- Step 4 of repairOrphanedToolPairs (sanitize.go lines 52-92).  In the Go
code pendingCalls is nil or non-empty (it is only ever set from a non-empty
slice and reset to nil by the flush), so the nil test is the emptiness test. -/
def repairLoop : List Message → List ToolCall → List String → List Message
  | [], pending, rids => (flushPending pending rids).1
  | m :: rest, pending, rids =>
    if m.role != "tool" && !pending.isEmpty then
      (flushPending pending rids).1
        ++ m :: repairLoop rest (nextPending m []) (flushPending pending rids).2
    else
      m :: repairLoop rest (nextPending m pending) rids

/-- repairOrphanedToolPairs (sanitize.go lines 11-95), the Sanitize operation
of the spec. -/
def repairOrphanedToolPairs (msgs : List Message) : List Message :=
  if msgs.isEmpty then msgs
  else
    let filtered := dropOrphanedResults msgs
    repairLoop filtered [] (collectResultIDs filtered)

/-! ## pkg/doctor/doctor.go : checkSessionMessages -/

/-- The identifying data of one problem string produced by
checkSessionMessages; each constructor mirrors one fmt.Sprintf call
(doctor.go lines 334, 342, 365, 371, 376) with exactly the data interpolated
into that format string. -/
inductive Problem where
  | emptyToolCallID (index : Nat) (toolName : String)
  | orphanToolCall (index : Nat) (id : String) (toolName : String)
  | orphanToolResult (index : Nat) (id : String)
  | emptyAssistant (index : Nat)
  | consecutiveUser (index : Nat)
deriving DecidableEq

/-- The two-step tool name lookup of doctor.go lines 330-333 and 339-341, and
of sanitize.go lines 60-63: the nested function name overrides the direct name
whenever the nested field is present. -/
def resolveToolName (tc : ToolCall) : String :=
  match tc.function with
  | some f => f.name
  | none => tc.name

/-- Membership in the toolResultIDs set of doctor.go lines 316-321. -/
def hasToolResult (msgs : List Message) (id : String) : Bool :=
  msgs.any (fun m => m.role == "tool" && m.toolCallID != "" && m.toolCallID == id)

/-- The scan over earlier assistant messages of doctor.go lines 349-363. -/
def hasEarlierToolCall (prevs : List Message) (id : String) : Bool :=
  prevs.any (fun p => p.role == "assistant" && p.toolCalls.any (fun tc => tc.id == id))

/-- The per-tool-call checks of doctor.go lines 326-344. -/
def toolCallProblems (msgs : List Message) (i : Nat) : List ToolCall → List Problem
  | [] => []
  | tc :: rest =>
    if tc.id == "" then
      Problem.emptyToolCallID i (resolveToolName tc) :: toolCallProblems msgs i rest
    else if !hasToolResult msgs tc.id then
      Problem.orphanToolCall i tc.id (resolveToolName tc) :: toolCallProblems msgs i rest
    else toolCallProblems msgs i rest

/-- All problems reported for the message at index i (doctor.go lines 323-378),
in the order the Go loop appends them. -/
def problemsAt (msgs : List Message) (i : Nat) (m : Message) : List Problem :=
  (if m.role == "assistant" && !m.toolCalls.isEmpty then toolCallProblems msgs i m.toolCalls
   else [])
  ++ (if m.role == "tool" && m.toolCallID != ""
         && !hasEarlierToolCall (msgs.take i) m.toolCallID then
        [Problem.orphanToolResult i m.toolCallID]
      else [])
  ++ (if m.role == "assistant" && m.content == "" && m.toolCalls.isEmpty then
        [Problem.emptyAssistant i]
      else [])
  ++ (if decide (0 < i) && ((msgs.get? (i - 1)).any (fun prev => m.role == prev.role))
         && m.role == "user" then
        [Problem.consecutiveUser i]
      else [])

/-- The outer index loop of checkSessionMessages. -/
def checkFrom (msgs : List Message) : Nat → List Message → List Problem
  | _, [] => []
  | i, m :: rest => problemsAt msgs i m ++ checkFrom msgs (i + 1) rest

/-- checkSessionMessages (doctor.go lines 312-381), the Scan operation of the
spec, with each reported string represented by its identifying data. -/
def checkSessionMessages (msgs : List Message) : List Problem :=
  checkFrom msgs 0 msgs

/-! ## Derived predicates used to state the pairing properties -/

/-- The sequence holds a tool result answering the given id. -/
def HasResult (l : List Message) (id : String) : Prop :=
  ∃ t ∈ l, t.role = "tool" ∧ t.toolCallID = id

/-- Some assistant message of the sequence emits a tool call with the given id. -/
def AsstCall (l : List Message) (id : String) : Prop :=
  ∃ a ∈ l, a.role = "assistant" ∧ ∃ tc ∈ a.toolCalls, tc.id = id

/-- The observable shape of a synthetic result injected by
repairOrphanedToolPairs: a tool message carrying a non-empty id, the fixed
placeholder content, and no tool calls. -/
def isSyntheticShape (x : Message) : Bool :=
  x.role == "tool" && x.toolCallID != "" && x.content == syntheticContent
    && x.toolCalls.isEmpty

/-! ## pkg/session manager.go (absent from the source tree) -/

/-- Modelled from the spec: the boundary adjustment of TruncateHistory
(pkg/session/manager.go is not in the source tree; only manager_test.go is).
Spec section 4.3: if the naive cut point falls strictly inside a
tool-call/tool-result group, extend the retained window backward to the start
of that group.  Starting from the naive cut index, the window grows backward
while the message at the cut is a tool result. -/
def snapToGroupStart (msgs : List Message) : Nat → Nat
  | 0 => 0
  | i + 1 =>
    match msgs.get? (i + 1) with
    | some m => if m.role == "tool" then snapToGroupStart msgs i else i + 1
    | none => i + 1

/-- Modelled from the spec: TruncateHistory (pkg/session/manager.go is not in
the source tree).  Spec section 4.3: return the input unchanged when its length
is at most targetCount; otherwise keep the naive suffix, snap the cut backward
out of any tool-call group, and run Pairing Repair on the retained suffix. -/
def TruncateHistory (msgs : List Message) (targetCount : Nat) : List Message :=
  if msgs.length ≤ targetCount then msgs
  else repairOrphanedToolPairs (msgs.drop (snapToGroupStart msgs (msgs.length - targetCount)))

/-- The error Save reports for a path-unsafe key. -/
inductive SaveError where
  | invalidKey
deriving DecidableEq

/-- Modelled from the spec: the key validation of Save
(pkg/session/manager.go is not in the source tree; only manager_test.go is).
Spec section 4.4: a key is rejected when it is empty, ".", "..", or contains a
forward or backward slash. -/
def invalidSessionKey (key : String) : Bool :=
  key == "" || key == "." || key == ".." || key.data.contains '/' || key.data.contains '\\'

/-- Modelled from the spec and manager_test.go: the on-disk filename is the key
with every colon replaced by an underscore (strings.ReplaceAll with a
single-character pattern is a character map). -/
def sanitizeFilename (key : String) : String :=
  String.mk (key.data.map (fun c => if c = ':' then '_' else c))

/-- Modelled from the spec: Save over an abstract store (a list of
filename-content pairs standing for the sessions directory).  Validation runs
before any access to the store; a valid key overwrites the file derived from
the sanitized key with the .json extension. -/
def Save (store : List (String × String)) (key : String) (content : String) :
    Except SaveError (List (String × String)) :=
  if invalidSessionKey key then Except.error SaveError.invalidKey
  else Except.ok ((sanitizeFilename key ++ ".json", content) :: store)

/-! ## cmd/picoclaw cmd_sessions.go : listSessionEntries -/

/-- The display metadata parsed from one stored session file: its key and the
number of messages its messages array decodes to (zero when that array fails
to decode, as in the Go code where the msgs slice stays nil). -/
structure SessionFileData where
  key : String
  messageCount : Nat
deriving DecidableEq

/-- One entry of the sessions directory as the enumeration sees it: the file
name, whether it is a subdirectory, and the outcome of JSON-decoding its
content (none when the content is not valid JSON).  The JSON decoder is the Go
standard library, external to this development; its outcome is data here. -/
structure DirEntry where
  name : String
  isDir : Bool
  parsed : Option SessionFileData
deriving DecidableEq

/-- sessionEntry (cmd_sessions.go lines 308-314) restricted to the fields the
enumeration logic computes from file content; modification time and size come
from Stat metadata and carry no logic. -/
structure SessionEntry where
  id : String
  messages : Nat
  corrupt : Bool
deriving DecidableEq

/-- The extension test of cmd_sessions.go: filepath.Ext(name) == ".json".
Since ".json" holds a single dot, the test equals the suffix test on the
character sequence. -/
def hasJsonExt (name : String) : Bool :=
  List.isSuffixOf (".json" : String).data name.data

/-- strings.TrimSuffix(name, ".json") as used in cmd_sessions.go: the suffix
".json" spans five characters. -/
def trimJsonSuffix (name : String) : String :=
  if hasJsonExt name then String.mk (name.data.take (name.data.length - 5)) else name

/-- listSessionEntries (cmd_sessions.go lines 456-514) over a readable
directory: skip subdirectories and files without the .json extension (the
filepath.Ext test equals the suffix test since ".json" holds a single dot);
a file that fails to decode yields a corrupt entry named after the file;
a file that decodes yields an entry named by its key, falling back to the
file name when the key is empty, with its message count. -/
def listSessionEntries : List DirEntry → List SessionEntry
  | [] => []
  | f :: rest =>
    if f.isDir || !hasJsonExt f.name then listSessionEntries rest
    else
      match f.parsed with
      | none =>
        { id := trimJsonSuffix f.name, messages := 0, corrupt := true }
          :: listSessionEntries rest
      | some sd =>
        { id := if sd.key == "" then trimJsonSuffix f.name else sd.key,
          messages := sd.messageCount, corrupt := false } :: listSessionEntries rest

/-! ## Lemmas about flushPending -/

theorem flush_skip_iff {tc : ToolCall} {r : List String} :
    (tc.id == "" || r.contains tc.id) = true ↔ tc.id = "" ∨ tc.id ∈ r := by
  simp [List.elem_iff]

theorem flushPending_fst_mem {p : List ToolCall} {r : List String} {x : Message}
    (hx : x ∈ (flushPending p r).1) :
    ∃ tc ∈ p, tc.id ≠ "" ∧ x = syntheticResult tc.id := by
  induction p generalizing r with
  | nil => simp [flushPending] at hx
  | cons tc rest ih =>
    rw [flushPending] at hx
    split at hx
    · obtain ⟨tc', h1, h2⟩ := ih hx
      exact ⟨tc', List.mem_cons_of_mem _ h1, h2⟩
    · next h =>
      rw [flush_skip_iff] at h
      push_neg at h
      simp only [List.mem_cons] at hx
      rcases hx with rfl | hx
      · exact ⟨tc, List.mem_cons_self _ _, h.1, rfl⟩
      · obtain ⟨tc', h1, h2⟩ := ih hx
        exact ⟨tc', List.mem_cons_of_mem _ h1, h2⟩

theorem flushPending_snd_mono {p : List ToolCall} {r : List String} {a : String}
    (ha : a ∈ r) : a ∈ (flushPending p r).2 := by
  induction p generalizing r with
  | nil => simpa [flushPending] using ha
  | cons tc rest ih =>
    rw [flushPending]
    split
    · exact ih ha
    · exact ih (List.mem_cons_of_mem _ ha)

theorem flushPending_covers {p : List ToolCall} {r : List String} {tc : ToolCall}
    (htc : tc ∈ p) (hid : tc.id ≠ "") :
    tc.id ∈ r ∨ ∃ x ∈ (flushPending p r).1, x = syntheticResult tc.id := by
  induction p generalizing r with
  | nil => cases htc
  | cons tc0 rest ih =>
    rcases List.mem_cons.mp htc with rfl | hmem
    · rw [flushPending]
      split
      · next h =>
        rw [flush_skip_iff] at h
        rcases h with h | h
        · exact absurd h hid
        · exact Or.inl h
      · exact Or.inr ⟨syntheticResult tc.id, List.mem_cons_self _ _, rfl⟩
    · rw [flushPending]
      split
      · exact ih hmem
      · rcases ih (r := tc0.id :: r) hmem with h | ⟨x, hx1, hx2⟩
        · rcases List.mem_cons.mp h with h | h
          · exact Or.inr ⟨syntheticResult tc0.id, List.mem_cons_self _ _, by rw [h]⟩
          · exact Or.inl h
        · exact Or.inr ⟨x, List.mem_cons_of_mem _ hx1, hx2⟩

theorem flushPending_snd_spec {p : List ToolCall} {r : List String} {a : String}
    (h : a ∈ (flushPending p r).2) :
    a ∈ r ∨ ∃ x ∈ (flushPending p r).1, x = syntheticResult a := by
  induction p generalizing r with
  | nil => exact Or.inl (by simpa [flushPending] using h)
  | cons tc rest ih =>
    rw [flushPending] at h ⊢
    split at h
    · next hc => rw [if_pos hc]; exact ih h
    · next hc =>
      rw [if_neg hc]
      rcases ih h with h' | ⟨x, hx1, hx2⟩
      · rcases List.mem_cons.mp h' with h' | h'
        · exact Or.inr ⟨syntheticResult tc.id, List.mem_cons_self _ _, by rw [h']⟩
        · exact Or.inl h'
      · exact Or.inr ⟨x, List.mem_cons_of_mem _ hx1, hx2⟩

theorem flushPending_no_inject {p : List ToolCall} {r : List String}
    (h : ∀ tc ∈ p, tc.id = "" ∨ tc.id ∈ r) : flushPending p r = ([], r) := by
  induction p with
  | nil => rfl
  | cons tc rest ih =>
    rw [flushPending, if_pos]
    · exact ih fun tc' h' => h tc' (List.mem_cons_of_mem _ h')
    · exact flush_skip_iff.mpr (h tc (List.mem_cons_self _ _))

/-! ## Lemmas about repairLoop -/

theorem syntheticResult_role (a : String) : (syntheticResult a).role = "tool" := rfl

theorem syntheticResult_id (a : String) : (syntheticResult a).toolCallID = a := rfl

theorem nextPending_origin {m : Message} {pending : List ToolCall} {a : String}
    (h : ∃ tc ∈ nextPending m pending, tc.id = a) :
    (∃ tc ∈ pending, tc.id = a)
      ∨ (m.role = "assistant" ∧ ∃ tc ∈ m.toolCalls, tc.id = a) := by
  unfold nextPending at h
  split at h
  · next hc =>
    simp only [Bool.and_eq_true, beq_iff_eq] at hc
    exact Or.inr ⟨hc.1, h⟩
  · exact Or.inl h

theorem repairLoop_sublist (s : List Message) (pending : List ToolCall)
    (rids : List String) : List.Sublist s (repairLoop s pending rids) := by
  induction s generalizing pending rids with
  | nil => exact List.nil_sublist _
  | cons m rest ih =>
    rw [repairLoop]
    split
    · exact List.Sublist.trans (List.Sublist.cons₂ m (ih _ _))
        (List.sublist_append_right _ _)
    · exact List.Sublist.cons₂ m (ih _ _)

theorem repairLoop_mem {s : List Message} {pending : List ToolCall}
    {rids : List String} {x : Message} (hx : x ∈ repairLoop s pending rids) :
    x ∈ s ∨ ∃ a, a ≠ "" ∧ x = syntheticResult a
      ∧ ((∃ tc ∈ pending, tc.id = a) ∨ AsstCall s a) := by
  induction s generalizing pending rids with
  | nil =>
    obtain ⟨tc, htc, hne, hsy⟩ := flushPending_fst_mem hx
    exact Or.inr ⟨tc.id, hne, hsy, Or.inl ⟨tc, htc, rfl⟩⟩
  | cons m rest ih =>
    rw [repairLoop] at hx
    have origin_shift : ∀ p0 : List ToolCall,
        (∃ tc ∈ nextPending m p0, tc.id = x.toolCallID) ∨ AsstCall rest x.toolCallID →
        (∃ tc ∈ p0, tc.id = x.toolCallID) ∨ AsstCall (m :: rest) x.toolCallID := by
      intro p0 h0
      rcases h0 with h0 | h0
      · rcases nextPending_origin h0 with h0 | ⟨hr, htc⟩
        · exact Or.inl h0
        · exact Or.inr ⟨m, List.mem_cons_self _ _, hr, htc⟩
      · obtain ⟨a', ha', rest'⟩ := h0
        exact Or.inr ⟨a', List.mem_cons_of_mem _ ha', rest'⟩
    split at hx
    · rcases List.mem_append.mp hx with hx | hx
      · obtain ⟨tc, htc, hne, hsy⟩ := flushPending_fst_mem hx
        exact Or.inr ⟨tc.id, hne, hsy, Or.inl ⟨tc, htc, rfl⟩⟩
      · rcases List.mem_cons.mp hx with rfl | hx
        · exact Or.inl (List.mem_cons_self _ _)
        · rcases ih hx with h | ⟨a, hne, hsy, horig⟩
          · exact Or.inl (List.mem_cons_of_mem _ h)
          · subst hsy
            refine Or.inr ⟨a, hne, rfl, ?_⟩
            have := origin_shift [] (by simpa [syntheticResult_id] using horig)
            rcases this with ⟨tc, htcnil, _⟩ | h
            · cases htcnil
            · exact Or.inr (by simpa [syntheticResult_id] using h)
    · rcases List.mem_cons.mp hx with rfl | hx
      · exact Or.inl (List.mem_cons_self _ _)
      · rcases ih hx with h | ⟨a, hne, hsy, horig⟩
        · exact Or.inl (List.mem_cons_of_mem _ h)
        · subst hsy
          refine Or.inr ⟨a, hne, rfl, ?_⟩
          exact (by simpa [syntheticResult_id] using
            origin_shift pending (by simpa [syntheticResult_id] using horig))

theorem repairLoop_covers {s : List Message} {pending : List ToolCall}
    {rids : List String} {a : String} (hne : a ≠ "")
    (horigin : (∃ tc ∈ pending, tc.id = a) ∨ AsstCall s a) :
    HasResult (repairLoop s pending rids) a ∨ a ∈ rids := by
  induction s generalizing pending rids with
  | nil =>
    rcases horigin with ⟨tc, htc, hid⟩ | ⟨_, h, _⟩
    · subst hid
      rcases flushPending_covers htc hne with h | ⟨x, hx1, hx2⟩
      · exact Or.inr h
      · exact Or.inl ⟨x, by rw [repairLoop]; exact hx1,
          by rw [hx2]; exact ⟨rfl, rfl⟩⟩
    · cases h
  | cons m rest ih =>
    rw [repairLoop]
    split
    · next hcond =>
      rcases horigin with ⟨tc, htc, hid⟩ | ⟨a', ha', hrole, tc, htc, hid⟩
      · subst hid
        rcases flushPending_covers (r := rids) htc hne with h | ⟨x, hx1, hx2⟩
        · exact Or.inr h
        · exact Or.inl ⟨x, List.mem_append_left _ hx1,
            by rw [hx2]; exact ⟨rfl, rfl⟩⟩
      · have step : HasResult (repairLoop rest (nextPending m []) (flushPending pending rids).2) a
            ∨ a ∈ (flushPending pending rids).2 := by
          rcases List.mem_cons.mp ha' with rfl | ha'
          · refine ih (Or.inl ⟨tc, ?_, hid⟩)
            unfold nextPending
            rw [if_pos]
            · exact htc
            · simp only [Bool.and_eq_true, beq_iff_eq, Bool.not_eq_true']
              exact ⟨hrole, List.isEmpty_eq_false.mpr (List.ne_nil_of_mem htc)⟩
          · exact ih (Or.inr ⟨a', ha', hrole, tc, htc, hid⟩)
        rcases step with h | h
        · obtain ⟨t, ht1, ht2⟩ := h
          exact Or.inl ⟨t, List.mem_append_right _ (List.mem_cons_of_mem _ ht1), ht2⟩
        · rcases flushPending_snd_spec h with h | ⟨x, hx1, hx2⟩
          · exact Or.inr h
          · exact Or.inl ⟨x, List.mem_append_left _ hx1,
              by rw [hx2]; exact ⟨rfl, rfl⟩⟩
    · next hcond =>
      have hsplit : pending = [] ∨ m.role = "tool" := by
        rcases eq_or_ne m.role ("tool") with h | h
        · exact Or.inr h
        · left
          by_contra hnil
          exact hcond (by
            simp only [Bool.and_eq_true, bne_iff_ne, Bool.not_eq_true']
            exact ⟨h, List.isEmpty_eq_false.mpr hnil⟩)
      have step : HasResult (repairLoop rest (nextPending m pending) rids) a ∨ a ∈ rids := by
        rcases horigin with ⟨tc, htc, hid⟩ | ⟨a', ha', hrole, tc, htc, hid⟩
        · rcases hsplit with rfl | hrole
          · cases htc
          · refine ih (Or.inl ⟨tc, ?_, hid⟩)
            unfold nextPending
            rw [if_neg]
            · exact htc
            · simp only [Bool.and_eq_true, beq_iff_eq, hrole]
              intro h
              exact absurd h.1 (by decide)
        · rcases List.mem_cons.mp ha' with rfl | ha'
          · refine ih (Or.inl ⟨tc, ?_, hid⟩)
            unfold nextPending
            rw [if_pos]
            · exact htc
            · simp only [Bool.and_eq_true, beq_iff_eq, Bool.not_eq_true']
              exact ⟨hrole, List.isEmpty_eq_false.mpr (List.ne_nil_of_mem htc)⟩
          · exact ih (Or.inr ⟨a', ha', hrole, tc, htc, hid⟩)
      rcases step with h | h
      · obtain ⟨t, ht1, ht2⟩ := h
        exact Or.inl ⟨t, List.mem_cons_of_mem _ ht1, ht2⟩
      · exact Or.inr h

theorem isSyntheticShape_synthetic {a : String} (ha : a ≠ "") :
    isSyntheticShape (syntheticResult a) = true := by
  simp [isSyntheticShape, syntheticResult, ha]

theorem flushPending_fst_filter (p : List ToolCall) (r : List String) :
    (flushPending p r).1.filter (fun x => !isSyntheticShape x) = [] := by
  rw [List.filter_eq_nil_iff]
  intro x hx
  obtain ⟨tc, _, hne, hsy⟩ := flushPending_fst_mem hx
  simp [hsy, isSyntheticShape_synthetic hne]

theorem repairLoop_filter (s : List Message) (pending : List ToolCall)
    (rids : List String) :
    (repairLoop s pending rids).filter (fun x => !isSyntheticShape x)
      = s.filter (fun x => !isSyntheticShape x) := by
  induction s generalizing pending rids with
  | nil => rw [repairLoop, flushPending_fst_filter]; rfl
  | cons m rest ih =>
    rw [repairLoop]
    split
    · rw [List.filter_append, flushPending_fst_filter, List.nil_append,
        List.filter_cons, List.filter_cons, ih]
    · rw [List.filter_cons, List.filter_cons, ih]

theorem repairLoop_no_inject {s : List Message} {pending : List ToolCall}
    {rids : List String}
    (hp : ∀ tc ∈ pending, tc.id = "" ∨ tc.id ∈ rids)
    (hs : ∀ m ∈ s, m.role = "assistant" → ∀ tc ∈ m.toolCalls, tc.id = "" ∨ tc.id ∈ rids) :
    repairLoop s pending rids = s := by
  induction s generalizing pending with
  | nil => rw [repairLoop, flushPending_no_inject hp]
  | cons m rest ih =>
    have hnext : ∀ p0 : List ToolCall, (∀ tc ∈ p0, tc.id = "" ∨ tc.id ∈ rids) →
        ∀ tc ∈ nextPending m p0, tc.id = "" ∨ tc.id ∈ rids := by
      intro p0 hp0 tc htc
      unfold nextPending at htc
      split at htc
      · next hc =>
        simp only [Bool.and_eq_true, beq_iff_eq] at hc
        exact hs m (List.mem_cons_self _ _) hc.1 tc htc
      · exact hp0 tc htc
    rw [repairLoop]
    split
    · rw [flushPending_no_inject hp, List.nil_append]
      rw [ih (hnext [] (by intro tc h; cases h))
        (fun m' hm' => hs m' (List.mem_cons_of_mem _ hm'))]
    · rw [ih (hnext pending hp)
        (fun m' hm' => hs m' (List.mem_cons_of_mem _ hm'))]

/-! ## Membership bridges -/

theorem isAssistantCallID_iff {msgs : List Message} {a : String} :
    isAssistantCallID msgs a = true ↔ AsstCall msgs a := by
  simp [isAssistantCallID, AsstCall, List.any_eq_true]

theorem hasToolResult_iff {msgs : List Message} {a : String} (ha : a ≠ "") :
    hasToolResult msgs a = true ↔ HasResult msgs a := by
  simp only [hasToolResult, HasResult, List.any_eq_true, Bool.and_eq_true,
    beq_iff_eq, bne_iff_ne]
  constructor
  · rintro ⟨t, ht, h⟩
    exact ⟨t, ht, h.1.1, h.2⟩
  · rintro ⟨t, ht, h1, h3⟩
    exact ⟨t, ht, ⟨h1, by rw [h3]; exact ha⟩, h3⟩

theorem hasEarlierToolCall_iff {prevs : List Message} {a : String} :
    hasEarlierToolCall prevs a = true ↔ AsstCall prevs a := by
  simp [hasEarlierToolCall, AsstCall, List.any_eq_true]

theorem mem_collectResultIDs {s : List Message} {a : String} :
    a ∈ collectResultIDs s ↔ ∃ t ∈ s, t.role = "tool" ∧ t.toolCallID = a ∧ a ≠ "" := by
  induction s with
  | nil => simp [collectResultIDs]
  | cons m rest ih =>
    rw [collectResultIDs]
    split
    · next hc =>
      simp only [Bool.and_eq_true, beq_iff_eq, bne_iff_ne] at hc
      simp only [List.mem_cons, ih]
      constructor
      · rintro (rfl | ⟨t, ht, h⟩)
        · exact ⟨m, Or.inl rfl, hc.1, rfl, hc.2⟩
        · exact ⟨t, Or.inr ht, h⟩
      · rintro ⟨t, rfl | ht, h1, h2, h3⟩
        · exact Or.inl h2.symm
        · exact Or.inr ⟨t, ht, h1, h2, h3⟩
    · next hc =>
      simp only [Bool.and_eq_true, beq_iff_eq, bne_iff_ne, not_and] at hc
      rw [ih]
      constructor
      · rintro ⟨t, ht, h⟩
        exact ⟨t, List.mem_cons_of_mem _ ht, h⟩
      · rintro ⟨t, ht, h1, h2, h3⟩
        rcases List.mem_cons.mp ht with rfl | ht
        · exact absurd (h2.symm ▸ h3 : t.toolCallID ≠ "") (by simpa using hc h1)
        · exact ⟨t, ht, h1, h2, h3⟩

theorem mem_dropOrphanedResults {m : List Message} {x : Message} :
    x ∈ dropOrphanedResults m
      ↔ x ∈ m ∧ ¬(x.role = "tool" ∧ x.toolCallID ≠ "" ∧ ¬AsstCall m x.toolCallID) := by
  rw [dropOrphanedResults, List.mem_filter]
  constructor
  · rintro ⟨h1, h2⟩
    refine ⟨h1, ?_⟩
    simp only [Bool.not_eq_true', Bool.and_eq_false_iff, beq_eq_false_iff_ne,
      bne_eq_false_iff_eq, Bool.not_eq_false] at h2
    rintro ⟨hr, hid, hno⟩
    rcases h2 with (h | h) | h
    · exact h hr
    · exact hid h
    · exact hno (isAssistantCallID_iff.mp (by simpa using h))
  · rintro ⟨h1, h2⟩
    refine ⟨h1, ?_⟩
    simp only [Bool.not_eq_true', Bool.and_eq_false_iff, beq_eq_false_iff_ne,
      bne_eq_false_iff_eq]
    by_cases hr : x.role = "tool"
    · by_cases hid : x.toolCallID = ""
      · exact Or.inl (Or.inr hid)
      · have hA : AsstCall m x.toolCallID := by
          by_contra hno
          exact h2 ⟨hr, hid, hno⟩
        exact Or.inr (by simpa using isAssistantCallID_iff.mpr hA)
    · exact Or.inl (Or.inl hr)

theorem dropOrphanedResults_sub {m : List Message} {x : Message}
    (hx : x ∈ dropOrphanedResults m) : x ∈ m :=
  (mem_dropOrphanedResults.mp hx).1

theorem mem_dropOrphanedResults_of_role {m : List Message} {x : Message}
    (hx : x ∈ m) (hr : x.role ≠ "tool") : x ∈ dropOrphanedResults m :=
  mem_dropOrphanedResults.mpr ⟨hx, fun h => hr h.1⟩

/-! ## Top-level properties of repairOrphanedToolPairs -/

theorem repairOrphanedToolPairs_eq (m : List Message) :
    repairOrphanedToolPairs m
      = repairLoop (dropOrphanedResults m) [] (collectResultIDs (dropOrphanedResults m)) := by
  cases m with
  | nil => rfl
  | cons a l =>
    rw [repairOrphanedToolPairs, if_neg]
    simp [List.isEmpty]

/-- The surviving input messages form a sublist of the sanitized output. -/
theorem sanitize_sublist (m : List Message) :
    List.Sublist (dropOrphanedResults m) (repairOrphanedToolPairs m) := by
  rw [repairOrphanedToolPairs_eq]
  exact repairLoop_sublist _ _ _

/-- Every message of the sanitized output is a surviving input message or an
injected synthetic result whose id comes from an assistant tool call of the
surviving input. -/
theorem sanitize_mem {m : List Message} {x : Message}
    (hx : x ∈ repairOrphanedToolPairs m) :
    x ∈ dropOrphanedResults m
      ∨ ∃ a, a ≠ "" ∧ x = syntheticResult a ∧ AsstCall (dropOrphanedResults m) a := by
  rw [repairOrphanedToolPairs_eq] at hx
  rcases repairLoop_mem hx with h | ⟨a, hne, hsy, horig⟩
  · exact Or.inl h
  · rcases horig with ⟨tc, htc, _⟩ | h
    · cases htc
    · exact Or.inr ⟨a, hne, hsy, h⟩

/-- Pairing property (a): every non-empty assistant tool call id of the
sanitized output is answered by some tool message of the sanitized output. -/
theorem sanitize_call_answered {m : List Message} {x : Message} {tc : ToolCall}
    (hx : x ∈ repairOrphanedToolPairs m) (hrole : x.role = "assistant")
    (htc : tc ∈ x.toolCalls) (hid : tc.id ≠ "") :
    HasResult (repairOrphanedToolPairs m) tc.id := by
  have hxf : x ∈ dropOrphanedResults m := by
    rcases sanitize_mem hx with h | ⟨a, _, hsy, _⟩
    · exact h
    · rw [hsy, syntheticResult_role] at hrole
      exact absurd hrole (by decide)
  have hA : AsstCall (dropOrphanedResults m) tc.id := ⟨x, hxf, hrole, tc, htc, rfl⟩
  rw [repairOrphanedToolPairs_eq]
  rcases repairLoop_covers hid (Or.inr hA) with h | h
  · exact h
  · obtain ⟨t, ht, h1, h2⟩ := mem_collectResultIDs.mp h
    exact ⟨t, (repairLoop_sublist _ _ _).mem ht, h1, h2.1⟩

/-- Pairing property (b): every tool message of the sanitized output with a
non-empty id answers a tool call of some assistant message of the input, and
that assistant message itself survives into the output. -/
theorem sanitize_result_matched {m : List Message} {x : Message}
    (hx : x ∈ repairOrphanedToolPairs m) (hrole : x.role = "tool")
    (hid : x.toolCallID ≠ "") :
    AsstCall (repairOrphanedToolPairs m) x.toolCallID := by
  have key : AsstCall (dropOrphanedResults m) x.toolCallID := by
    rcases sanitize_mem hx with h | ⟨a, hne, hsy, hA⟩
    · have h2 := (mem_dropOrphanedResults.mp h).2
      have hA : AsstCall m x.toolCallID := by
        by_contra hno
        exact h2 ⟨hrole, hid, hno⟩
      obtain ⟨a', ha', hr', rest'⟩ := hA
      exact ⟨a', mem_dropOrphanedResults_of_role ha' (by rw [hr']; decide), hr', rest'⟩
    · rw [hsy, syntheticResult_id]
      exact hA
  obtain ⟨a', ha', hr', rest'⟩ := key
  exact ⟨a', (sanitize_sublist m).mem ha', hr', rest'⟩

/-- Every tool message of the sanitized output with a non-empty id answers a
tool call of some assistant message of the original input. -/
theorem sanitize_result_in_input {m : List Message} {x : Message}
    (hx : x ∈ repairOrphanedToolPairs m) (hrole : x.role = "tool")
    (hid : x.toolCallID ≠ "") :
    AsstCall m x.toolCallID := by
  obtain ⟨a', ha', hr', rest'⟩ := sanitize_result_matched hx hrole hid
  rcases sanitize_mem ha' with h | ⟨b, _, hsy, _⟩
  · exact ⟨a', dropOrphanedResults_sub h, hr', rest'⟩
  · rw [hsy, syntheticResult_role] at hr'
    exact absurd hr' (by decide)

/-- The sanitized output filtered of synthetic-shaped messages is exactly the
surviving input filtered of synthetic-shaped messages. -/
theorem sanitize_filter (m : List Message) :
    (repairOrphanedToolPairs m).filter (fun x => !isSyntheticShape x)
      = (dropOrphanedResults m).filter (fun x => !isSyntheticShape x) := by
  rw [repairOrphanedToolPairs_eq]
  exact repairLoop_filter _ _ _

/-- Claim C2: Sanitize (repairOrphanedToolPairs) is idempotent: sanitizing a
sanitized sequence changes nothing. -/
theorem sanitize_idempotent (m : List Message) :
    repairOrphanedToolPairs (repairOrphanedToolPairs m) = repairOrphanedToolPairs m := by
  have hdrop : dropOrphanedResults (repairOrphanedToolPairs m) = repairOrphanedToolPairs m := by
    rw [dropOrphanedResults, List.filter_eq_self]
    intro x hx
    simp only [Bool.not_eq_true', Bool.and_eq_false_iff, beq_eq_false_iff_ne,
      bne_eq_false_iff_eq]
    by_cases hr : x.role = "tool"
    · by_cases hid : x.toolCallID = ""
      · exact Or.inl (Or.inr hid)
      · exact Or.inr (by
          simpa using isAssistantCallID_iff.mpr (sanitize_result_matched hx hr hid))
    · exact Or.inl (Or.inl hr)
  rw [repairOrphanedToolPairs_eq (repairOrphanedToolPairs m), hdrop]
  apply repairLoop_no_inject
  · intro tc htc
    cases htc
  · intro a ha hrole tc htc
    by_cases hid : tc.id = ""
    · exact Or.inl hid
    · refine Or.inr (mem_collectResultIDs.mpr ?_)
      obtain ⟨t, ht, h1, h2⟩ := sanitize_call_answered ha hrole htc hid
      exact ⟨t, ht, h1, h2, hid⟩

/-- Claim C1, counterexample: the pairing invariant as stated fails.  On this
input Sanitize changes nothing; the assistant tool call "x" (index 2) then has
two later matching tool results instead of exactly one, the tool result at
index 1 matches no assistant tool call earlier than itself, and the tool
message at index 0 carries an empty toolCallID matching no tool call at all. -/
theorem sanitize_pairing_counterexample :
    repairOrphanedToolPairs
        [{ role := "tool", content := "e" },
         { role := "tool", content := "r0", toolCallID := "x" },
         { role := "assistant", toolCalls := [{ id := "x", name := "exec" }] },
         { role := "tool", content := "r1", toolCallID := "x" },
         { role := "tool", content := "r2", toolCallID := "x" }]
      = [{ role := "tool", content := "e" },
         { role := "tool", content := "r0", toolCallID := "x" },
         { role := "assistant", toolCalls := [{ id := "x", name := "exec" }] },
         { role := "tool", content := "r1", toolCallID := "x" },
         { role := "tool", content := "r2", toolCallID := "x" }]
    ∧ (List.filter (fun (t : Message) => t.role == "tool" && t.toolCallID == "x")
        (List.drop 3
          [{ role := "tool", content := "e" },
           { role := "tool", content := "r0", toolCallID := "x" },
           { role := "assistant", toolCalls := [{ id := "x", name := "exec" }] },
           { role := "tool", content := "r1", toolCallID := "x" },
           { role := "tool", content := "r2", toolCallID := "x" }])).length = 2
    ∧ hasEarlierToolCall
        (List.take 1
          [{ role := "tool", content := "e" },
           { role := "tool", content := "r0", toolCallID := "x" },
           { role := "assistant", toolCalls := [{ id := "x", name := "exec" }] },
           { role := "tool", content := "r1", toolCallID := "x" },
           { role := "tool", content := "r2", toolCallID := "x" }]) "x" = false
    ∧ isAssistantCallID
        [{ role := "tool", content := "e" },
         { role := "tool", content := "r0", toolCallID := "x" },
         { role := "assistant", toolCalls := [{ id := "x", name := "exec" }] },
         { role := "tool", content := "r1", toolCallID := "x" },
         { role := "tool", content := "r2", toolCallID := "x" }] "" = false := by
  exact ⟨by decide, by decide, by decide, by decide⟩

/-- Claim C1, amended: in Sanitize(m) every assistant tool call with a
non-empty id has at least one matching tool message somewhere in the output
(not necessarily later, and possibly several when the input held duplicates),
and every tool message with a non-empty toolCallID matches some assistant tool
call somewhere in the output (not necessarily earlier). -/
theorem sanitize_pairing_amended (m : List Message) :
    (∀ x ∈ repairOrphanedToolPairs m, x.role = "assistant" →
        ∀ tc ∈ x.toolCalls, tc.id ≠ "" → HasResult (repairOrphanedToolPairs m) tc.id)
    ∧ (∀ t ∈ repairOrphanedToolPairs m, t.role = "tool" → t.toolCallID ≠ "" →
        AsstCall (repairOrphanedToolPairs m) t.toolCallID) :=
  ⟨fun _ hx hrole _ htc hid => sanitize_call_answered hx hrole htc hid,
   fun _ ht hrole hid => sanitize_result_matched ht hrole hid⟩

/-- Witness for the amended claim C1 at a concrete input. -/
theorem sanitize_pairing_amended_witness :
    HasResult
      (repairOrphanedToolPairs
        [{ role := "assistant", toolCalls := [{ id := "x", name := "exec" }] }]) "x" :=
  (sanitize_pairing_amended
      [{ role := "assistant", toolCalls := [{ id := "x", name := "exec" }] }]).1
    { role := "assistant", toolCalls := [{ id := "x", name := "exec" }] }
    (by decide) rfl { id := "x", name := "exec" } (by decide) (by decide)

/-- Claim C7: Sanitize drops every tool message whose toolCallID is non-empty
and matches no assistant tool call of the input (every surviving or injected
tool message with a non-empty id answers an input assistant tool call), and the
spec scenario: [user, tool with id call_x, assistant] becomes [user, assistant]
of length 2. -/
theorem sanitize_drops_orphan_results :
    (∀ (m : List Message), ∀ t ∈ repairOrphanedToolPairs m, t.role = "tool" →
        t.toolCallID ≠ "" → AsstCall m t.toolCallID)
    ∧ repairOrphanedToolPairs
        [{ role := "user", content := "u" },
         { role := "tool", content := "r", toolCallID := "call_x" },
         { role := "assistant", content := "a" }]
      = [{ role := "user", content := "u" }, { role := "assistant", content := "a" }] :=
  ⟨fun _ _ ht hrole hid => sanitize_result_in_input ht hrole hid, by decide⟩

/-- Witness for claim C7: the surviving tool result of a well-paired input is
backed by an assistant tool call of that input. -/
theorem sanitize_drops_orphan_results_witness :
    AsstCall
      [{ role := "assistant", toolCalls := [{ id := "y", name := "web" }] },
       { role := "tool", content := "r", toolCallID := "y" }] "y" :=
  sanitize_drops_orphan_results.1
    [{ role := "assistant", toolCalls := [{ id := "y", name := "web" }] },
     { role := "tool", content := "r", toolCallID := "y" }]
    { role := "tool", content := "r", toolCallID := "y" }
    (by decide) rfl (by decide)

/-- Claim C10: the messages of Sanitize(m) other than the injected synthetic
results are exactly the surviving (non-dropped) input messages, unchanged and
in their original relative order: the surviving input is a sublist of the
output, filtering synthetic-shaped messages from the output and from the
surviving input yields the same list, and every output message is a surviving
input message or has the synthetic shape (role tool, non-empty toolCallID, the
fixed placeholder content, no tool calls). -/
theorem sanitize_only_drops_and_injects (m : List Message) :
    List.Sublist (dropOrphanedResults m) (repairOrphanedToolPairs m)
    ∧ (repairOrphanedToolPairs m).filter (fun x => !isSyntheticShape x)
        = (dropOrphanedResults m).filter (fun x => !isSyntheticShape x)
    ∧ ∀ x ∈ repairOrphanedToolPairs m, x ∈ dropOrphanedResults m
        ∨ (x.role = "tool" ∧ x.toolCallID ≠ "" ∧ x.content = syntheticContent
            ∧ x.toolCalls = []) := by
  refine ⟨sanitize_sublist m, sanitize_filter m, fun x hx => ?_⟩
  rcases sanitize_mem hx with h | ⟨a, hne, hsy, _⟩
  · exact Or.inl h
  · rw [hsy]
    exact Or.inr ⟨rfl, hne, rfl, rfl⟩

/-- Witness for claim C10: the injected synthetic message of a concrete run has
the synthetic shape. -/
theorem sanitize_only_drops_and_injects_witness :
    syntheticResult ("x")
        ∈ dropOrphanedResults
            [{ role := "assistant", toolCalls := [{ id := "x", name := "exec" }] }]
      ∨ ((syntheticResult ("x")).role = "tool" ∧ (syntheticResult ("x")).toolCallID ≠ ""
          ∧ (syntheticResult ("x")).content = syntheticContent
          ∧ (syntheticResult ("x")).toolCalls = []) :=
  (sanitize_only_drops_and_injects
      [{ role := "assistant", toolCalls := [{ id := "x", name := "exec" }] }]).2.2
    (syntheticResult ("x")) (by decide)

/-! ## Membership structure of the scanner output -/

theorem mem_if_nil {α : Type} {c : Prop} [Decidable c] {l : List α} {x : α} :
    x ∈ (if c then l else []) ↔ c ∧ x ∈ l := by
  split <;> simp_all

theorem mem_toolCallProblems_orphan {msgs : List Message} {j : Nat}
    {tcs : List ToolCall} {i : Nat} {a nm : String} :
    Problem.orphanToolCall i a nm ∈ toolCallProblems msgs j tcs
      ↔ i = j ∧ ∃ tc ∈ tcs, tc.id = a ∧ a ≠ "" ∧ resolveToolName tc = nm
          ∧ hasToolResult msgs a = false := by
  induction tcs with
  | nil => simp [toolCallProblems]
  | cons tc rest ih =>
    rw [toolCallProblems]
    split
    · next hc =>
      rw [beq_iff_eq] at hc
      constructor
      · intro h
        rcases List.mem_cons.mp h with h | h
        · simp at h
        · obtain ⟨rfl, tc', htc', hrest⟩ := ih.mp h
          exact ⟨rfl, tc', List.mem_cons_of_mem _ htc', hrest⟩
      · rintro ⟨rfl, tc', htc', h1, h2, h3, h4⟩
        rcases List.mem_cons.mp htc' with rfl | htc'
        · exact absurd (h1 ▸ hc) h2
        · exact List.mem_cons_of_mem _ (ih.mpr ⟨rfl, tc', htc', h1, h2, h3, h4⟩)
    · next hc =>
      rw [beq_iff_eq] at hc
      split
      · next hr =>
        constructor
        · intro h
          rcases List.mem_cons.mp h with h | h
          · rw [Problem.orphanToolCall.injEq] at h
            obtain ⟨rfl, rfl, rfl⟩ := h
            exact ⟨rfl, tc, List.mem_cons_self _ _, rfl, hc, rfl, by simpa using hr⟩
          · obtain ⟨rfl, tc', htc', hrest⟩ := ih.mp h
            exact ⟨rfl, tc', List.mem_cons_of_mem _ htc', hrest⟩
        · rintro ⟨rfl, tc', htc', h1, h2, h3, h4⟩
          rcases List.mem_cons.mp htc' with rfl | htc'
          · exact List.mem_cons.mpr (Or.inl (by rw [h1, h3]))
          · exact List.mem_cons_of_mem _ (ih.mpr ⟨rfl, tc', htc', h1, h2, h3, h4⟩)
      · next hr =>
        rw [Bool.not_eq_true', Bool.not_eq_false] at hr
        rw [ih]
        constructor
        · rintro ⟨rfl, tc', htc', hrest⟩
          exact ⟨rfl, tc', List.mem_cons_of_mem _ htc', hrest⟩
        · rintro ⟨rfl, tc', htc', h1, h2, h3, h4⟩
          rcases List.mem_cons.mp htc' with rfl | htc'
          · rw [h1] at hr
            rw [hr] at h4
            cases h4
          · exact ⟨rfl, tc', htc', h1, h2, h3, h4⟩

theorem mem_toolCallProblems_result {msgs : List Message} {j : Nat}
    {tcs : List ToolCall} {i : Nat} {a : String} :
    Problem.orphanToolResult i a ∉ toolCallProblems msgs j tcs := by
  induction tcs with
  | nil => simp [toolCallProblems]
  | cons tc rest ih =>
    rw [toolCallProblems]
    split
    · simp [ih]
    · split <;> simp [ih]

theorem mem_problemsAt_orphanToolCall {msgs : List Message} {j : Nat}
    {m : Message} {i : Nat} {a nm : String} :
    Problem.orphanToolCall i a nm ∈ problemsAt msgs j m
      ↔ i = j ∧ m.role = "assistant" ∧ ∃ tc ∈ m.toolCalls, tc.id = a ∧ a ≠ ""
          ∧ resolveToolName tc = nm ∧ hasToolResult msgs a = false := by
  unfold problemsAt
  constructor
  · intro h
    rcases List.mem_append.mp h with h | h4
    rcases List.mem_append.mp h with h | h3
    rcases List.mem_append.mp h with h1 | h2
    · obtain ⟨hc, hmem⟩ := mem_if_nil.mp h1
      simp only [Bool.and_eq_true, beq_iff_eq, Bool.not_eq_true',
        List.isEmpty_eq_false] at hc
      obtain ⟨rfl, tc', htc', hrest⟩ := mem_toolCallProblems_orphan.mp hmem
      exact ⟨rfl, hc.1, tc', htc', hrest⟩
    · obtain ⟨_, hmem⟩ := mem_if_nil.mp h2
      rw [List.mem_singleton] at hmem
      simp at hmem
    · obtain ⟨_, hmem⟩ := mem_if_nil.mp h3
      rw [List.mem_singleton] at hmem
      simp at hmem
    · obtain ⟨_, hmem⟩ := mem_if_nil.mp h4
      rw [List.mem_singleton] at hmem
      simp at hmem
  · rintro ⟨rfl, hrole, tc, htc, hrest⟩
    apply List.mem_append.mpr
    left
    apply List.mem_append.mpr
    left
    apply List.mem_append.mpr
    left
    apply mem_if_nil.mpr
    refine ⟨?_, mem_toolCallProblems_orphan.mpr ⟨rfl, tc, htc, hrest⟩⟩
    simp only [Bool.and_eq_true, beq_iff_eq, Bool.not_eq_true', List.isEmpty_eq_false]
    exact ⟨hrole, List.ne_nil_of_mem htc⟩

theorem mem_problemsAt_orphanToolResult {msgs : List Message} {j : Nat}
    {m : Message} {i : Nat} {a : String} :
    Problem.orphanToolResult i a ∈ problemsAt msgs j m
      ↔ i = j ∧ m.role = "tool" ∧ m.toolCallID = a ∧ a ≠ ""
          ∧ hasEarlierToolCall (msgs.take j) a = false := by
  unfold problemsAt
  constructor
  · intro h
    rcases List.mem_append.mp h with h | h4
    rcases List.mem_append.mp h with h | h3
    rcases List.mem_append.mp h with h1 | h2
    · obtain ⟨_, hmem⟩ := mem_if_nil.mp h1
      exact absurd hmem mem_toolCallProblems_result
    · obtain ⟨hc, hmem⟩ := mem_if_nil.mp h2
      rw [List.mem_singleton, Problem.orphanToolResult.injEq] at hmem
      obtain ⟨rfl, rfl⟩ := hmem
      simp only [Bool.and_eq_true, beq_iff_eq, bne_iff_ne, Bool.not_eq_true'] at hc
      exact ⟨rfl, hc.1.1, rfl, hc.1.2, hc.2⟩
    · obtain ⟨_, hmem⟩ := mem_if_nil.mp h3
      rw [List.mem_singleton] at hmem
      simp at hmem
    · obtain ⟨_, hmem⟩ := mem_if_nil.mp h4
      rw [List.mem_singleton] at hmem
      simp at hmem
  · rintro ⟨rfl, hrole, rfl, hne, hearly⟩
    apply List.mem_append.mpr
    left
    apply List.mem_append.mpr
    left
    apply List.mem_append.mpr
    right
    apply mem_if_nil.mpr
    refine ⟨?_, List.mem_singleton.mpr rfl⟩
    simp only [Bool.and_eq_true, beq_iff_eq, bne_iff_ne, Bool.not_eq_true']
    exact ⟨⟨hrole, hne⟩, hearly⟩

theorem mem_checkFrom {msgs : List Message} {p : Problem} :
    ∀ {l : List Message} {i : Nat},
      (p ∈ checkFrom msgs i l
        ↔ ∃ (k : Nat) (h : k < l.length), p ∈ problemsAt msgs (i + k) (l.get ⟨k, h⟩)) := by
  intro l
  induction l with
  | nil => intro i; simp [checkFrom]
  | cons m rest ih =>
    intro i
    rw [checkFrom, List.mem_append, ih]
    constructor
    · rintro (h | ⟨k, hk, h⟩)
      · exact ⟨0, by simp, by simpa using h⟩
      · exact ⟨k + 1, by simpa using hk, by
          simpa [Nat.add_assoc, Nat.add_comm 1 k] using h⟩
    · rintro ⟨k, hk, h⟩
      cases k with
      | zero => exact Or.inl (by simpa using h)
      | succ k =>
        exact Or.inr ⟨k, by simpa using hk, by
          simpa [Nat.add_assoc, Nat.add_comm 1 k] using h⟩

theorem mem_checkSessionMessages {msgs : List Message} {p : Problem} :
    p ∈ checkSessionMessages msgs
      ↔ ∃ (k : Nat) (h : k < msgs.length), p ∈ problemsAt msgs k (msgs.get ⟨k, h⟩) := by
  rw [checkSessionMessages, mem_checkFrom]
  simp

/-- Claim C5, counterexample: the scanner does not report an orphan tool_call
by "no later matching tool result".  Here the only tool result for "x" sits
before the assistant tool call, so no
later result exists, yet no orphan tool_call problem is reported: the code
checks a set of result ids built from the whole sequence. -/
theorem scanner_orphan_call_counterexample :
    checkSessionMessages
        [{ role := "tool", content := "r", toolCallID := "x" },
         { role := "assistant", content := "a",
           toolCalls := [{ id := "x", name := "exec" }] }]
      = [Problem.orphanToolResult 0 "x"]
    ∧ List.filter (fun (t : Message) => t.role == "tool" && t.toolCallID == "x")
        (List.drop 2
          [{ role := "tool", content := "r", toolCallID := "x" },
           { role := "assistant", content := "a",
             toolCalls := [{ id := "x", name := "exec" }] }]) = []
    ∧ Problem.orphanToolCall 1 "x" "exec"
        ∉ checkSessionMessages
            [{ role := "tool", content := "r", toolCallID := "x" },
             { role := "assistant", content := "a",
               toolCalls := [{ id := "x", name := "exec" }] }] := by
  exact ⟨by decide, by decide, by decide⟩

/-- Claim C5, amended: the scanner reports an orphan tool_call for an
assistant tool call exactly when no tool message anywhere in the sequence
(earlier or later) carries that id. -/
theorem scanner_orphan_call_iff (msgs : List Message) (i : Nat) (a nm : String) :
    Problem.orphanToolCall i a nm ∈ checkSessionMessages msgs
      ↔ ∃ h : i < msgs.length, (msgs.get ⟨i, h⟩).role = "assistant"
          ∧ ∃ tc ∈ (msgs.get ⟨i, h⟩).toolCalls, tc.id = a ∧ a ≠ ""
            ∧ resolveToolName tc = nm ∧ ¬ HasResult msgs a := by
  rw [mem_checkSessionMessages]
  constructor
  · rintro ⟨k, hk, hmem⟩
    obtain ⟨rfl, hrole, tc, htc, h1, h2, h3, h4⟩ :=
      mem_problemsAt_orphanToolCall.mp hmem
    refine ⟨hk, hrole, tc, htc, h1, h2, h3, fun hR => ?_⟩
    rw [← hasToolResult_iff h2] at hR
    rw [h4] at hR
    cases hR
  · rintro ⟨h, hrole, tc, htc, h1, h2, h3, h4⟩
    refine ⟨i, h, mem_problemsAt_orphanToolCall.mpr
      ⟨rfl, hrole, tc, htc, h1, h2, h3, ?_⟩⟩
    rw [← Bool.not_eq_true, hasToolResult_iff h2]
    exact h4

/-- Witness for the amended claim C5 at a concrete input. -/
theorem scanner_orphan_call_iff_witness :
    Problem.orphanToolCall 0 "z" "exec"
      ∈ checkSessionMessages
          [{ role := "assistant", content := "a",
             toolCalls := [{ id := "z", name := "exec" }] }] :=
  (scanner_orphan_call_iff
      [{ role := "assistant", content := "a",
         toolCalls := [{ id := "z", name := "exec" }] }] 0 "z" "exec").mpr
    ⟨by decide, rfl, { id := "z", name := "exec" }, by decide, rfl, by decide,
      rfl, by simp [HasResult]⟩

/-- Claim C6: the scanner reports an orphan tool_result for the tool message at
index i exactly when its toolCallID is non-empty and no assistant message
strictly before index i emits a tool call with that id. -/
theorem scanner_orphan_result_iff (msgs : List Message) (i : Nat) (a : String) :
    Problem.orphanToolResult i a ∈ checkSessionMessages msgs
      ↔ ∃ h : i < msgs.length, (msgs.get ⟨i, h⟩).role = "tool"
          ∧ (msgs.get ⟨i, h⟩).toolCallID = a ∧ a ≠ ""
            ∧ ¬ AsstCall (msgs.take i) a := by
  rw [mem_checkSessionMessages]
  constructor
  · rintro ⟨k, hk, hmem⟩
    obtain ⟨rfl, hrole, h1, h2, h3⟩ := mem_problemsAt_orphanToolResult.mp hmem
    refine ⟨hk, hrole, h1, h2, fun hA => ?_⟩
    rw [← hasEarlierToolCall_iff] at hA
    rw [h3] at hA
    cases hA
  · rintro ⟨h, hrole, h1, h2, h3⟩
    refine ⟨i, h, mem_problemsAt_orphanToolResult.mpr ⟨rfl, hrole, h1, h2, ?_⟩⟩
    rw [← Bool.not_eq_true, hasEarlierToolCall_iff]
    exact h3

/-- Witness for claim C6 at a concrete input. -/
theorem scanner_orphan_result_iff_witness :
    Problem.orphanToolResult 0 "q"
      ∈ checkSessionMessages [{ role := "tool", content := "r", toolCallID := "q" }] :=
  (scanner_orphan_result_iff
      [{ role := "tool", content := "r", toolCallID := "q" }] 0 "q").mpr
    ⟨by decide, rfl, rfl, by decide, by simp [AsstCall]⟩

/-- Claim C8, counterexample: name resolution does not prefer the direct name
field.  Here the direct name "exec" is non-empty (usable), yet the reported
orphan tool_call finding carries the nested function name "web": the code uses
the nested field whenever it is present. -/
theorem toolname_resolution_counterexample :
    checkSessionMessages
        [{ role := "assistant", content := "a",
           toolCalls := [{ id := "x", name := "exec",
                           function := some { name := "web" } }] }]
      = [Problem.orphanToolCall 0 "x" "web"]
    ∧ ("exec" : String) ≠ ""
    ∧ Problem.orphanToolCall 0 "x" "exec"
        ∉ checkSessionMessages
            [{ role := "assistant", content := "a",
               toolCalls := [{ id := "x", name := "exec",
                               function := some { name := "web" } }] }] := by
  exact ⟨by decide, by decide, by decide⟩

/-- Claim C8, amended: the reporting name of a tool call is resolved by a
two-step lookup that uses the nested function-name field whenever it is
present and falls back to the direct name field otherwise, as the reported
orphan finding for any unanswered call shows. -/
theorem toolname_resolution_amended (tc : ToolCall) (hid : tc.id ≠ "") :
    checkSessionMessages [{ role := "assistant", content := "c", toolCalls := [tc] }]
      = [Problem.orphanToolCall 0 tc.id
          (match tc.function with | some f => f.name | none => tc.name)] := by
  have hbeq : (tc.id == "") = false := beq_eq_false_iff_ne.mpr hid
  simp [checkSessionMessages, checkFrom, problemsAt, toolCallProblems,
    hasToolResult, resolveToolName, hbeq]

/-- Witness for the amended claim C8 at a concrete tool call carrying both
name fields. -/
theorem toolname_resolution_amended_witness :
    checkSessionMessages
        [{ role := "assistant", content := "c",
           toolCalls := [{ id := "x", name := "exec",
                           function := some { name := "web" } }] }]
      = [Problem.orphanToolCall 0 "x" "web"] :=
  toolname_resolution_amended
    { id := "x", name := "exec", function := some { name := "web" } } (by decide)

/-- Claim C3 (spec-modelled TruncateHistory): truncation never leaves a tool
message whose matching tool call was dropped, nor an assistant tool call whose
results were all dropped while present in the input: any retained tool message
whose call existed in the input still has a matching call in the output, any
retained assistant tool call whose result existed in the input still has a
matching result in the output, and a sequence of length at most targetCount is
returned unchanged. -/
theorem truncate_preserves_tool_pairs (m : List Message) (n : Nat) :
    (∀ t ∈ TruncateHistory m n, t.role = "tool" → t.toolCallID ≠ "" →
        AsstCall m t.toolCallID → AsstCall (TruncateHistory m n) t.toolCallID)
    ∧ (∀ x ∈ TruncateHistory m n, x.role = "assistant" →
        ∀ tc ∈ x.toolCalls, tc.id ≠ "" → HasResult m tc.id →
          HasResult (TruncateHistory m n) tc.id)
    ∧ (m.length ≤ n → TruncateHistory m n = m) := by
  by_cases hlen : m.length ≤ n
  · rw [TruncateHistory, if_pos hlen]
    exact ⟨fun _ _ _ _ hA => hA, fun _ _ _ _ _ _ hR => hR, fun _ => rfl⟩
  · rw [TruncateHistory, if_neg hlen]
    refine ⟨?_, ?_, fun h => absurd h hlen⟩
    · intro t ht hr hid _
      exact sanitize_result_matched ht hr hid
    · intro x hx hr tc htc hid _
      exact sanitize_call_answered hx hr htc hid

/-- Witness for claim C3: a short history is returned unchanged. -/
theorem truncate_preserves_tool_pairs_witness :
    ([{ role := "user", content := "q" }] : List Message).length ≤ 3
      ∧ TruncateHistory [{ role := "user", content := "q" }] 3
          = [{ role := "user", content := "q" }] :=
  ⟨by decide, (truncate_preserves_tool_pairs [{ role := "user", content := "q" }] 3).2.2
    (by decide)⟩

/-- Claim C4 (spec-modelled Save): for every store state, Save fails with the
InvalidKey error exactly on keys that are empty, ".", "..", or contain a
forward or backward slash — independent of the store, hence before any
filesystem access — and succeeds on every other key. -/
theorem save_invalid_key_validation (store : List (String × String))
    (key content : String) :
    ((key = "" ∨ key = "." ∨ key = ".." ∨ '/' ∈ key.data ∨ '\\' ∈ key.data) →
        Save store key content = Except.error SaveError.invalidKey)
    ∧ (¬(key = "" ∨ key = "." ∨ key = ".." ∨ '/' ∈ key.data ∨ '\\' ∈ key.data) →
        Save store key content
          = Except.ok ((sanitizeFilename key ++ ".json", content) :: store)) := by
  have hiff : invalidSessionKey key = true
      ↔ (key = "" ∨ key = "." ∨ key = ".." ∨ '/' ∈ key.data ∨ '\\' ∈ key.data) := by
    simp [invalidSessionKey, List.elem_iff, or_assoc]
  constructor
  · intro h
    rw [Save, if_pos (hiff.mpr h)]
  · intro h
    rw [Save, if_neg (fun hc => h (hiff.mp hc))]

/-- Witness for claim C4: a key with a slash is rejected with InvalidKey on the
empty store, and a colon key passes validation. -/
theorem save_invalid_key_validation_witness :
    ("a/b" = "" ∨ "a/b" = "." ∨ "a/b" = ".." ∨ '/' ∈ ("a/b" : String).data
        ∨ '\\' ∈ ("a/b" : String).data)
    ∧ Save [] "a/b" "s" = Except.error SaveError.invalidKey
    ∧ Save [] "telegram:9" "s"
        = Except.ok [(sanitizeFilename ("telegram:9") ++ ".json", "s")]
    ∧ sanitizeFilename ("telegram:9") ++ ".json" = "telegram_9.json" :=
  ⟨by decide, (save_invalid_key_validation [] "a/b" "s").1 (by decide),
    (save_invalid_key_validation [] "telegram:9" "s").2 (by decide), by decide⟩

/-- Claim C9: over a readable sessions directory the enumeration never fails on
invalid JSON: every non-directory .json file that fails to decode appears in
the result as a corrupt entry whose id is the filename without the .json
suffix, and every non-directory .json file that decodes appears with its key
(or filename-derived fallback) and its message count. -/
theorem list_sessions_includes_all_json (files : List DirEntry) :
    (∀ f ∈ files, f.isDir = false → hasJsonExt f.name = true →
        f.parsed = none →
        ({ id := trimJsonSuffix f.name, messages := 0, corrupt := true } : SessionEntry)
          ∈ listSessionEntries files)
    ∧ (∀ f ∈ files, f.isDir = false → hasJsonExt f.name = true →
        ∀ sd, f.parsed = some sd →
        ({ id := if sd.key == "" then trimJsonSuffix f.name else sd.key,
           messages := sd.messageCount, corrupt := false } : SessionEntry)
          ∈ listSessionEntries files) := by
  induction files with
  | nil => refine ⟨?_, ?_⟩ <;> intro f hf <;> cases hf
  | cons g rest ih =>
    have hskip_absurd : ∀ {f : DirEntry}, f.isDir = false →
        hasJsonExt f.name = true →
        (f.isDir || !hasJsonExt f.name) = true → False := by
      intro f hdir hext h
      rw [Bool.or_eq_true] at h
      rcases h with h | h
      · rw [hdir] at h
        cases h
      · rw [Bool.not_eq_true', hext] at h
        cases h
    constructor
    · intro f hf hdir hext hparse
      rw [listSessionEntries]
      split
      · next hskip =>
        rcases List.mem_cons.mp hf with rfl | hf
        · exact absurd hskip (fun h => hskip_absurd hdir hext h)
        · exact ih.1 f hf hdir hext hparse
      · rcases List.mem_cons.mp hf with rfl | hf
        · rw [hparse]
          exact List.mem_cons_self _ _
        · cases hgp : g.parsed with
          | none => exact List.mem_cons_of_mem _ (ih.1 f hf hdir hext hparse)
          | some sd => exact List.mem_cons_of_mem _ (ih.1 f hf hdir hext hparse)
    · intro f hf hdir hext sd hparse
      rw [listSessionEntries]
      split
      · next hskip =>
        rcases List.mem_cons.mp hf with rfl | hf
        · exact absurd hskip (fun h => hskip_absurd hdir hext h)
        · exact ih.2 f hf hdir hext sd hparse
      · rcases List.mem_cons.mp hf with rfl | hf
        · rw [hparse]
          exact List.mem_cons_self _ _
        · cases hgp : g.parsed with
          | none => exact List.mem_cons_of_mem _ (ih.2 f hf hdir hext sd hparse)
          | some sd' => exact List.mem_cons_of_mem _ (ih.2 f hf hdir hext sd hparse)

/-- Witness for claim C9: a directory holding one corrupt and one valid session
file lists both, the corrupt one flagged and named after its file. -/
theorem list_sessions_includes_all_json_witness :
    trimJsonSuffix ("bad.json") = "bad"
    ∧ ({ id := trimJsonSuffix ("bad.json"), messages := 0, corrupt := true } : SessionEntry)
        ∈ listSessionEntries
            [{ name := "bad.json", isDir := false, parsed := none },
             { name := "good.json", isDir := false,
               parsed := some { key := "k", messageCount := 2 } }] :=
  ⟨by decide,
    (list_sessions_includes_all_json
        [{ name := "bad.json", isDir := false, parsed := none },
         { name := "good.json", isDir := false,
           parsed := some { key := "k", messageCount := 2 } }]).1
      { name := "bad.json", isDir := false, parsed := none }
      (by decide) rfl (by decide) rfl⟩

end Picoclaw
